import Mathlib

/-!
Verification of the timeline assembly and export engine of the imagesSubber
repository, against its natural-language specification.

The Python sources are shallowly embedded as Lean definitions:
Python floats standing for exact decimal arithmetic are modelled as `ℚ`,
Python ints as `ℤ`/`ℕ`, strings as `String`/`List Char`, and code paths that
can raise exceptions return `Option`.  Python `//` and `%` on numbers are
floor division and floor modulus, which on `ℤ` with positive divisors agree
with Lean's `/` and `%` (Euclidean); `int(x)` on a float truncates toward
zero.  Python's `list.sort` is a stable sort and is modelled by
`List.insertionSort` (stable sorts with equal keys are extensionally equal).
-/

/-! ## Time codec: `src/time_utils.py` and formatting from
`src/core/text_splitter.py` -/

/-- Whitespace stripping as done by Python `int()` before parsing
(`int(" 12 ") == 12`).  Models ASCII whitespace only. -/
def pyStrip (l : List Char) : List Char :=
  ((l.dropWhile Char.isWhitespace).reverse.dropWhile Char.isWhitespace).reverse

/-- Models Python `str.replace(',', '.')` from `time_to_seconds`. -/
def commaToDot (l : List Char) : List Char :=
  l.map fun c => if c = ',' then '.' else c

/-- Models Python `str.replace('.', ',')` from `_seconds_to_time`. -/
def dotToComma (l : List Char) : List Char :=
  l.map fun c => if c = '.' then ',' else c

/-- Models Python `str.split(sep)` for a one-character separator:
`"a:b".split(':') == ["a","b"]`, `"".split(':') == [""]`. -/
def splitOnChar (sep : Char) : List Char → List (List Char)
  | [] => [[]]
  | c :: cs =>
    match splitOnChar sep cs with
    | [] => [[]]
    | t :: ts => if c = sep then [] :: t :: ts else (c :: t) :: ts

/-- Numeric value of a decimal digit character. -/
def digitVal (c : Char) : ℕ := c.toNat - 48

/-- Value of a digit sequence, most significant digit first. -/
def digitsVal (l : List Char) : ℕ :=
  l.foldl (fun a c => 10 * a + digitVal c) 0

/-- Parses a nonempty all-digit character list into a natural number
(most significant digit first), as Python `int()` does after sign and
whitespace handling.  Returns `none` on the empty list or any non-digit. -/
def parseDigits (l : List Char) : Option ℕ :=
  if l ≠ [] ∧ l.all Char.isDigit then some (digitsVal l) else none

/-- Models Python `int(str)`: strip whitespace, optional sign, decimal
digits; raises (here `none`) otherwise.  Exotic acceptances of CPython
(underscore digit separators, non-ASCII digits) are not modelled. -/
def pyInt (l : List Char) : Option ℤ :=
  match pyStrip l with
  | '-' :: rest => (parseDigits rest).map fun n => -(n : ℤ)
  | '+' :: rest => (parseDigits rest).map fun n => (n : ℤ)
  | rest => (parseDigits rest).map fun n => (n : ℤ)

/-- Embedding of `time_to_seconds` (src/time_utils.py, lines 7-26).
Replaces `,` by `.`, splits on `:`, reads fields 0,1,2 (extra fields are
ignored, fewer than three is an `IndexError`, i.e. `none`); field 2 is
split on `.`, its first component is the whole seconds, its second (when
present) is parsed by `int()` as a count of milliseconds.  All field
parses go through `int()`. -/
def timeToSecondsChars (l : List Char) : Option ℚ := do
  let parts := splitOnChar ':' (commaToDot l)
  match parts with
  | p0 :: p1 :: p2 :: _ =>
    let hours ← pyInt p0
    let minutes ← pyInt p1
    match splitOnChar '.' p2 with
    | s0 :: rest =>
      let seconds ← pyInt s0
      let milliseconds ← match rest with
        | [] => pure (0 : ℤ)
        | m :: _ => pyInt m
      pure ((hours : ℚ) * 3600 + (minutes : ℚ) * 60 + (seconds : ℚ) +
        (milliseconds : ℚ) / 1000)
    | [] => none
  | _ => none

/-- String-level wrapper for `time_to_seconds`. -/
def time_to_seconds (s : String) : Option ℚ :=
  timeToSecondsChars s.data

/-- Decimal digits of `n`, least significant first, computed with
structural fuel (`fuel ≥ n` suffices). -/
def natDigitsF : ℕ → ℕ → List ℕ
  | 0, _ => []
  | _ + 1, 0 => []
  | fuel + 1, n + 1 => (n + 1) % 10 :: natDigitsF fuel ((n + 1) / 10)

/-- Decimal rendering of a natural number, as Python `str`/`%d` formatting
renders nonnegative integers. -/
def natToChars (n : ℕ) : List Char :=
  if n = 0 then ['0']
  else ((natDigitsF n n).map fun d => Char.ofNat (48 + d)).reverse

/-- Left-pads a character list with `'0'` up to width `w`. -/
def leftPadZeros (w : ℕ) (l : List Char) : List Char :=
  List.replicate (w - l.length) '0' ++ l

/-- Models Python `"%0wd" % z` zero-padded integer formatting for the
widths used here: for a negative value the sign occupies one column, and
for the width-2 uses in `_seconds_to_time` no digit padding remains. -/
def padIntZeros (w : ℕ) (z : ℤ) : List Char :=
  if z < 0 then '-' :: natToChars (-z).toNat else leftPadZeros w (natToChars z.toNat)

/-- Rounding of `q` to a count of thousandths, ties to even, as Python
`"%.3f"` formatting rounds (the model rounds the exact rational; the
binary-double representation error of CPython is below the millisecond
resolution relevant here). -/
def roundThousandths (q : ℚ) : ℤ :=
  let n := ⌊q * 1000⌋
  let r := q * 1000 - (n : ℚ)
  if r < 1 / 2 then n
  else if 1 / 2 < r then n + 1
  else if n % 2 = 0 then n else n + 1

/-- Models the `f"{secs:06.3f}"` field of `_seconds_to_time`
(src/core/text_splitter.py, lines 229-234): three decimals, total width
six, zero padded.  The argument is always nonnegative there (`x % 60`);
negative-value formatting is not modelled exactly. -/
def formatSecs (secs : ℚ) : List Char :=
  let n := roundThousandths secs
  padIntZeros 2 (n / 1000) ++ '.' :: leftPadZeros 3 (natToChars (n % 1000).toNat)

/-- Embedding of `SmartTextSplitter._seconds_to_time`
(src/core/text_splitter.py, lines 229-234):
`hours = int(x // 3600)`, `minutes = int((x % 3600) // 60)`,
`secs = x % 60`, rendered `f"{hours:02d}:{minutes:02d}:{secs:06.3f}"`
with `.` replaced by `,`. -/
def secondsToTimeChars (x : ℚ) : List Char :=
  let hours : ℤ := ⌊x / 3600⌋
  let minutes : ℤ := ⌊(x - 3600 * (⌊x / 3600⌋ : ℚ)) / 60⌋
  let secs : ℚ := x - 60 * (⌊x / 60⌋ : ℚ)
  dotToComma (padIntZeros 2 hours ++ ':' :: padIntZeros 2 minutes ++ ':' :: formatSecs secs)

/-- String-level wrapper for `_seconds_to_time`. -/
def seconds_to_time (x : ℚ) : String :=
  String.mk (secondsToTimeChars x)

/-- Models Python `int()` applied to a float value: truncation toward
zero. -/
def pyTrunc (q : ℚ) : ℤ :=
  if q < 0 then -⌊-q⌋ else ⌊q⌋

/-- Embedding of `seconds_to_frames` (src/time_utils.py, lines 46-57)
at the fixed default rate of 24 fps used by the generator:
`int(seconds * 24)`. -/
def seconds_to_frames (seconds : ℚ) : ℤ :=
  pyTrunc (seconds * 24)

/-! ## Candidate clips and the overlap resolver
(`src/fcpxml_generator.py`, `generate_fcpxml_timeline`, steps 1-3) -/

/-- Embedding of `TimelineClip` (src/fcpxml_generator.py, lines 13-36):
start and end in seconds plus the referenced asset.  The derived
`clip_name`/`image_path` fields play no role in the scheduling logic and
are represented by the asset id alone. -/
structure Clip where
  start : ℚ
  end_ : ℚ
  asset_id : String
deriving DecidableEq, Repr

instance : Inhabited Clip := ⟨⟨0, 0, ""⟩⟩

/-- Models `all_clips.sort(key=lambda clip: clip.end)` (line 130): a
stable sort ascending by end time. -/
def sortClipsByEnd (clips : List Clip) : List Clip :=
  List.insertionSort (fun a b => a.end_ ≤ b.end_) clips

instance : IsTotal Clip fun a b => a.end_ ≤ b.end_ :=
  ⟨fun a b => le_total a.end_ b.end_⟩

instance : IsTrans Clip fun a b => a.end_ ≤ b.end_ :=
  ⟨fun _ _ _ h1 h2 => le_trans h1 h2⟩

/-- One iteration of the overlap-fixing walk (lines 134-140) given a
non-`None` previous array slot `p`: trim the start to
`max(start, p.end)` when overlapping, and replace the clip by `None`
when the trimmed clip has `start >= end`. -/
def fixStep (p : Clip) (c : Clip) : Option Clip :=
  if c.start < p.end_ then
    let c2 : Clip := { c with start := max c.start p.end_ }
    if c2.end_ ≤ c2.start then none else some c2
  else some c

/-- The walk of lines 133-140 over the slots after the first.  The
comparison reference is the array-adjacent slot `all_clips[i-1]`; when
that slot holds `None` (a clip dropped at the previous index) the Python
code evaluates `None.end` and raises `AttributeError`, modelled by the
outer `none`. -/
def fixAux (prev : Option Clip) : List Clip → Option (List (Option Clip))
  | [] => some []
  | c :: cs =>
    match prev with
    | none => none
    | some p =>
      let slot := fixStep p c
      (fixAux slot cs).map fun slots => slot :: slots

/-- Embedding of the Overlap Resolver (lines 129-143): sort by end time,
walk fixing overlaps in place, then filter out the `None` slots.  The
outer `Option` is `none` exactly when the Python code raises. -/
def resolveOverlaps (clips : List Clip) : Option (List Clip) :=
  match sortClipsByEnd clips with
  | [] => some []
  | c :: cs => (fixAux (some c) cs).map fun slots => c :: slots.filterMap id

/-! ## Frame quantization, gap bridging and the serialized spine
(`src/fcpxml_generator.py`, lines 158-218) -/

/-- Embedding of the frame-based clip dictionaries built at lines
159-168. -/
structure FrameClip where
  start_frames : ℤ
  end_frames : ℤ
  asset_id : String
deriving DecidableEq, Repr

instance : Inhabited FrameClip := ⟨⟨0, 0, ""⟩⟩

/-- Quantization of one resolved clip (lines 161-167):
`seconds_to_frames(clip.start)` and `seconds_to_frames(clip.end)`. -/
def toFrameClip (c : Clip) : FrameClip :=
  ⟨seconds_to_frames c.start, seconds_to_frames c.end_, c.asset_id⟩

/-- Gap threshold `MIN_GAP_THRESHOLD_FRAMES = 12` (line 175). -/
def MIN_GAP_THRESHOLD_FRAMES : ℤ := 12

/-- The gap-bridging walk (lines 178-197) after the first clip.  `prev`
is the previously appended clip, whose `end_frames` field is still the
original input value when the gap against it is computed (a clip's end
is only mutated at the single step where it is the previous clip). -/
def bridgeAux (prev : FrameClip) : List FrameClip → List FrameClip
  | [] => [prev]
  | c :: cs =>
    let gap_frames := c.start_frames - prev.end_frames + 1
    if 0 < gap_frames ∧ gap_frames ≤ MIN_GAP_THRESHOLD_FRAMES then
      { prev with end_frames := c.start_frames } :: bridgeAux c cs
    else
      prev :: bridgeAux c cs

/-- Embedding of gap bridging (lines 174-197) over the quantized clip
list. -/
def bridgeGaps : List FrameClip → List FrameClip
  | [] => []
  | c :: cs => bridgeAux c cs

/-- One serialized spine element (lines 42-54): a gap or a video clip,
with offset and duration in frames. -/
inductive SpineElem
  | gap (offset_frames : ℤ) (duration_frames : ℤ)
  | video (ref : String) (offset_frames : ℤ) (duration_frames : ℤ)
deriving DecidableEq, Repr

instance : Inhabited SpineElem := ⟨SpineElem.gap 0 0⟩

/-- Offset of a serialized element. -/
def elemOffset : SpineElem → ℤ
  | SpineElem.gap o _ => o
  | SpineElem.video _ o _ => o

/-- Duration of a serialized element. -/
def elemDuration : SpineElem → ℤ
  | SpineElem.gap _ d => d
  | SpineElem.video _ _ d => d

/-- Embedding of the spine emission loop (lines 203-218): starting from
`current_timeline_position`, emit a gap when the clip starts beyond the
cursor, then emit the clip with inclusive duration
`end_frames - start_frames + 1`, always at the cursor position. -/
def serializeSpine (cursor : ℤ) : List FrameClip → List SpineElem
  | [] => []
  | c :: cs =>
    if cursor < c.start_frames then
      SpineElem.gap cursor (c.start_frames - cursor) ::
      SpineElem.video c.asset_id c.start_frames (c.end_frames - c.start_frames + 1) ::
      serializeSpine (c.start_frames + (c.end_frames - c.start_frames + 1)) cs
    else
      SpineElem.video c.asset_id cursor (c.end_frames - c.start_frames + 1) ::
      serializeSpine (cursor + (c.end_frames - c.start_frames + 1)) cs

/-- Sum of the durations of the emitted elements. -/
def sumDurations (es : List SpineElem) : ℤ :=
  (es.map elemDuration).sum

/-! ## The timeline input and the end-to-end clip pipeline
(`src/fcpxml_generator.py`, lines 56-143 and 158-218) -/

/-- One timeline entry as consumed by `generate_fcpxml_timeline`: start
and end timestamps (strings) and the ordered image path list
(`entry.get('image', [])`). -/
structure Entry where
  start : String
  end_ : String
  image : List String
deriving DecidableEq, Repr

/-- One step of the asset-id assignment of lines 83-104: unseen paths
get ids `"r1", "r2", ...` in first-seen order. -/
def assetStep (st : List (String × String) × ℕ) (path : String) :
    List (String × String) × ℕ :=
  match List.lookup path st.1 with
  | some _ => st
  | none => (st.1 ++ [(path, String.mk ('r' :: natToChars st.2))], st.2 + 1)

/-- Asset table of the timeline, in first-seen order, counter starting
at 1 (lines 83-104). -/
def buildAssets (timeline : List Entry) : List (String × String) :=
  (timeline.foldl (fun st e => e.image.foldl assetStep st) ([], 1)).1

/-- Clip construction for the images of one entry (lines 120-127):
image `idx` occupies `[start + idx*dur, start + (idx+1)*dur]`; images
missing from the asset table are skipped (`if asset_id:`). -/
def clipsOfImages (assets : List (String × String)) (s dur : ℚ) :
    ℕ → List String → List Clip
  | _, [] => []
  | idx, path :: rest =>
    match List.lookup path assets with
    | some aid =>
      ⟨s + (idx : ℚ) * dur, s + (idx : ℚ) * dur + dur, aid⟩ ::
        clipsOfImages assets s dur (idx + 1) rest
    | none => clipsOfImages assets s dur (idx + 1) rest

/-- Candidate clips of one entry (lines 109-127): parse the two
timestamps, divide the span evenly among the images; an entry with no
images contributes nothing. -/
def entryClips (assets : List (String × String)) (e : Entry) : Option (List Clip) := do
  let start_seconds ← time_to_seconds e.start
  let end_seconds ← time_to_seconds e.end_
  match e.image with
  | [] => pure []
  | imgs =>
    let image_duration := (end_seconds - start_seconds) / (imgs.length : ℚ)
    pure (clipsOfImages assets start_seconds image_duration 0 imgs)

/-- Concatenation of all entries' candidate clips in timeline order. -/
def allClipsAux (assets : List (String × String)) : List Entry → Option (List Clip)
  | [] => some []
  | e :: rest => do
    let cs ← entryClips assets e
    let rs ← allClipsAux assets rest
    pure (cs ++ rs)

/-- Step 1 of `generate_fcpxml_timeline`: the full candidate clip list
(lines 106-127). -/
def allClips (timeline : List Entry) : Option (List Clip) :=
  allClipsAux (buildAssets timeline) timeline

/-- The serialized spine produced by `generate_fcpxml_timeline` for a
timeline: materialize, resolve overlaps, quantize, bridge gaps,
serialize from cursor 0.  `none` models a raised exception. -/
def pipelineSpine (timeline : List Entry) : Option (List SpineElem) := do
  let clips ← allClips timeline
  let resolved ← resolveOverlaps clips
  pure (serializeSpine 0 (bridgeGaps (resolved.map toFrameClip)))

/-- The sequence duration attribute (lines 67-73):
`int(time_to_seconds(timeline[-1]['end']) * 24)`, `0` for an empty
timeline. -/
def totalDurationFrames (timeline : List Entry) : Option ℤ :=
  match timeline.getLast? with
  | none => some 0
  | some e => (time_to_seconds e.end_).map fun t => pyTrunc (t * 24)

/-! ## Duration splitter (`src/core/text_splitter.py`, lines 55-172)

The regex-based tokenizers `_tokenize_text` and `_split_into_sentences`
are opaque string functions with no bearing on the counting and timing
logic verified here; their results enter the embedding as the `words`
and `sentences` arguments.  The two `_time_to_seconds` conversions at
the top of `split_subtitle_text` produce the seconds values that flow
through the arithmetic, so the embedding takes `start_seconds` and
`end_seconds` directly. -/

/-- Embedding of `TextSplit` (src/core/text_splitter.py, lines 24-32)
restricted to the fields the verified properties mention; the time
stamps are carried as the seconds values from which the emitted strings
are formatted, and `keywords`/`original_segment_index` are omitted. -/
structure TextSplit where
  text : String
  start : ℚ
  end_ : ℚ
  split_index : ℕ
deriving DecidableEq, Repr

instance : Inhabited TextSplit := ⟨⟨"", 0, 0, 0⟩⟩

/-- The even-distribution loop of `_split_text_into_chunks` (lines
146-157 and 163-172): chunk `i` takes `base` units plus one extra while
`i < rem`, joined with single spaces; `count` counts the remaining loop
iterations, `i` the chunk index, `start_idx` the running unit index. -/
def buildChunksAux (units : List String) (base rem : ℕ) :
    ℕ → ℕ → ℕ → List String
  | 0, _, _ => []
  | count + 1, i, start_idx =>
    let chunk_size := base + (if i < rem then 1 else 0)
    String.intercalate " " ((units.drop start_idx).take chunk_size) ::
      buildChunksAux units base rem count (i + 1) (start_idx + chunk_size)

/-- Even distribution of `units` over `n` chunks, extra units to the
earliest chunks (`chunk_size = base + (1 if i < remainder else 0)`). -/
def distributeUnits (units : List String) (n : ℕ) : List String :=
  buildChunksAux units (units.length / n) (units.length % n) n 0 0

/-- Embedding of `SmartTextSplitter._split_text_into_chunks` (lines
120-172): one chunk for `num_chunks <= 1`; each word its own chunk when
`len(words) <= num_chunks`; else sentence units distributed over
`num_chunks` chunks when enough of them exist; else words distributed
over `num_chunks` chunks. -/
def split_text_into_chunks (text : String) (words sentences : List String)
    (num_chunks : ℤ) : List String :=
  if num_chunks ≤ 1 then [text]
  else if (words.length : ℤ) ≤ num_chunks then words
  else if num_chunks ≤ (sentences.length : ℤ) then
    distributeUnits sentences num_chunks.toNat
  else
    distributeUnits words num_chunks.toNat

/-- The split-emission loop of `split_subtitle_text` (lines 96-116):
chunk `i` spans `[start + i*d, start + (i+1)*d]` with the last end
forced to the original end; `n` is the chunk count and `i` the running
index. -/
def makeSplitsAux (start_seconds end_seconds d : ℚ) (n : ℕ) :
    ℕ → List String → List TextSplit
  | _, [] => []
  | i, chunk :: rest =>
    { text := chunk.trim
      start := start_seconds + (i : ℚ) * d
      end_ := if i = n - 1 then end_seconds else start_seconds + ((i : ℚ) + 1) * d
      split_index := i } :: makeSplitsAux start_seconds end_seconds d n (i + 1) rest

/-- Embedding of `SmartTextSplitter.split_subtitle_text` (lines 55-118):
`N = ceil(duration / 3)`; a single whole-span split when `N <= 1`;
otherwise the text chunks each get an equal share `duration / N` of the
span, the last split ending at the original end. -/
def split_subtitle_text (text : String) (words sentences : List String)
    (start_seconds end_seconds : ℚ) : List TextSplit :=
  let duration := end_seconds - start_seconds
  let num_splits : ℤ := ⌈duration / 3⌉
  if num_splits ≤ 1 then
    [{ text := text.trim, start := start_seconds, end_ := end_seconds, split_index := 0 }]
  else
    let text_chunks := split_text_into_chunks text words sentences num_splits
    makeSplitsAux start_seconds end_seconds (duration / (num_splits : ℚ))
      text_chunks.length 0 text_chunks

/-- The tiling property of spec §8 for the splits of one segment: the
first split starts at the segment start, the last ends at the segment
end, and consecutive splits share their boundary. -/
def TilesSpan (splits : List TextSplit) (s e : ℚ) : Prop :=
  splits.head?.map TextSplit.start = some s ∧
  splits.getLast?.map TextSplit.end_ = some e ∧
  List.Chain' (fun a b => a.end_ = b.start) splits

/-- The video payload of a spine element: its asset reference and
duration, `none` for a gap. -/
def videoRefDur : SpineElem → Option (String × ℤ)
  | SpineElem.gap _ _ => none
  | SpineElem.video r _ d => some (r, d)

/-- Relation between an output clip of the Overlap Resolver and the input
clip it came from: same end time and identity, start possibly trimmed
later. -/
def trimmedFrom (o c : Clip) : Prop :=
  o.end_ = c.end_ ∧ o.asset_id = c.asset_id ∧ c.start ≤ o.start

/-- Spec-side acceptance predicate for the amended claim C7, written from
its words for comparison against the source-translated parser: after
normalizing `,` to `.`, the string must have at least three
colon-separated fields (extra fields are ignored); the first two and the
leading dot-component of the third must parse as Python integers, an
optional fractional component is parsed by `int()` as a count of
milliseconds (components after a second dot are ignored) and defaults to
0 when absent, and the value is
`hours*3600 + minutes*60 + seconds + milliseconds/1000`. -/
def ParsesTo (l : List Char) (x : ℚ) : Prop :=
  ∃ (p0 p1 p2 s0 : List Char) (tail rest : List (List Char))
    (hours minutes seconds milliseconds : ℤ),
    splitOnChar ':' (commaToDot l) = p0 :: p1 :: p2 :: tail ∧
    pyInt p0 = some hours ∧
    pyInt p1 = some minutes ∧
    splitOnChar '.' p2 = s0 :: rest ∧
    pyInt s0 = some seconds ∧
    ((rest = [] ∧ milliseconds = 0) ∨
      ∃ (mfield : List Char) (mtail : List (List Char)),
        rest = mfield :: mtail ∧ pyInt mfield = some milliseconds) ∧
    x = (hours : ℚ) * 3600 + (minutes : ℚ) * 60 + (seconds : ℚ) +
      (milliseconds : ℚ) / 1000

lemma bridgeAux_cons (prev c : FrameClip) (cs : List FrameClip) :
    bridgeAux prev (c :: cs) =
      (if 0 < c.start_frames - prev.end_frames + 1 ∧
          c.start_frames - prev.end_frames + 1 ≤ MIN_GAP_THRESHOLD_FRAMES
       then { prev with end_frames := c.start_frames } else prev) :: bridgeAux c cs := by
  simp only [bridgeAux]
  split <;> rfl

lemma bridgeAux_spec (cs : List FrameClip) : ∀ (prev : FrameClip),
    (bridgeAux prev cs).length = cs.length + 1 ∧
    ∀ i, i < cs.length + 1 →
      ((bridgeAux prev cs)[i]!).start_frames = (((prev :: cs))[i]!).start_frames ∧
      ((bridgeAux prev cs)[i]!).asset_id = ((prev :: cs)[i]!).asset_id ∧
      ((bridgeAux prev cs)[i]!).end_frames =
        (if i + 1 < cs.length + 1 ∧
            0 < ((prev :: cs)[i + 1]!).start_frames - ((prev :: cs)[i]!).end_frames + 1 ∧
            ((prev :: cs)[i + 1]!).start_frames - ((prev :: cs)[i]!).end_frames + 1 ≤
              MIN_GAP_THRESHOLD_FRAMES
         then ((prev :: cs)[i + 1]!).start_frames else ((prev :: cs)[i]!).end_frames) := by
  induction cs with
  | nil =>
    intro prev
    refine ⟨rfl, ?_⟩
    intro i hi
    simp only [List.length_nil] at hi
    have hz : i = 0 := by omega
    subst hz
    simp [bridgeAux]
  | cons c cs ih =>
    intro prev
    rw [bridgeAux_cons]
    obtain ⟨ihlen, ihget⟩ := ih c
    constructor
    · simp [ihlen]
    · intro i hi
      match i with
      | 0 =>
        simp only [List.getElem!_cons_zero, List.getElem!_cons_succ]
        constructor
        · split <;> simp
        constructor
        · split <;> simp
        · simp only [List.length_cons]
          have : (0 : ℕ) + 1 < cs.length + 1 + 1 := by omega
          simp only [this, true_and]
          split <;> rename_i hcond
          · simp [hcond]
          · simp [hcond]
      | Nat.succ j =>
        have hj : j < cs.length + 1 := by
          simpa [Nat.succ_lt_succ_iff] using hi
        obtain ⟨h1, h2, h3⟩ := ihget j hj
        simp only [List.getElem!_cons_succ]
        refine ⟨h1, h2, ?_⟩
        rw [h3]
        have hiff : j + 1 + 1 < cs.length + 1 + 1 ↔ j + 1 < cs.length + 1 := by omega
        simp only [List.length_cons, hiff, List.getElem!_cons_succ]

/-- Claim C3: in gap bridging over the quantized clip list, for every index
`i > 0` the gap is computed as
`gap = frame_clips[i].start_frame - frame_clips[i-1].end_frame + 1`; if
`0 < gap <= 12` the previous retained clip's `end_frame` is extended
forward to `frame_clips[i].start_frame`, and if `gap <= 0` or `gap > 12`
both clips are left unchanged (stated at index `i` for the pair
`(i, i+1)`: lengths and start frames are preserved, and clip `i`'s output
end is `start_frames[i+1]` exactly when the gap lies in `(0, 12]`). -/
theorem gap_bridging_step (clips : List FrameClip) (i : ℕ) (h : i + 1 < clips.length) :
    (bridgeGaps clips).length = clips.length ∧
    ((bridgeGaps clips)[i]!).start_frames = (clips[i]!).start_frames ∧
    ((bridgeGaps clips)[i + 1]!).start_frames = (clips[i + 1]!).start_frames ∧
    ((bridgeGaps clips)[i]!).end_frames =
      (if 0 < (clips[i + 1]!).start_frames - (clips[i]!).end_frames + 1 ∧
          (clips[i + 1]!).start_frames - (clips[i]!).end_frames + 1 ≤ MIN_GAP_THRESHOLD_FRAMES
       then (clips[i + 1]!).start_frames else (clips[i]!).end_frames) := by
  match clips, h with
  | c :: cs, h =>
    obtain ⟨hlen, hget⟩ := bridgeAux_spec cs c
    have hlc : (c :: cs).length = cs.length + 1 := by simp
    have hi : i < cs.length + 1 := by omega
    have hi1 : i + 1 < cs.length + 1 := by
      simp only [List.length_cons] at h
      omega
    obtain ⟨hs, ha, he⟩ := hget i hi
    obtain ⟨hs1, _, _⟩ := hget (i + 1) hi1
    refine ⟨by simpa [bridgeGaps] using hlen, ?_, ?_, ?_⟩
    · simpa [bridgeGaps] using hs
    · simpa [bridgeGaps] using hs1
    · rw [show bridgeGaps (c :: cs) = bridgeAux c cs from rfl, he]
      simp only [hi1, true_and]

/-- Witness for `gap_bridging_step` at a concrete two-clip list with a
bridgeable 6-frame gap. -/
theorem gap_bridging_step_witness :
    (bridgeGaps [⟨0, 10, "a"⟩, ⟨16, 30, "b"⟩]).length = 2 ∧
    ((bridgeGaps [⟨0, 10, "a"⟩, ⟨16, 30, "b"⟩])[0]!).start_frames =
      (([⟨0, 10, "a"⟩, ⟨16, 30, "b"⟩] : List FrameClip)[0]!).start_frames ∧
    ((bridgeGaps [⟨0, 10, "a"⟩, ⟨16, 30, "b"⟩])[1]!).start_frames =
      (([⟨0, 10, "a"⟩, ⟨16, 30, "b"⟩] : List FrameClip)[1]!).start_frames ∧
    ((bridgeGaps [⟨0, 10, "a"⟩, ⟨16, 30, "b"⟩])[0]!).end_frames =
      (if 0 < (([⟨0, 10, "a"⟩, ⟨16, 30, "b"⟩] : List FrameClip)[1]!).start_frames -
            (([⟨0, 10, "a"⟩, ⟨16, 30, "b"⟩] : List FrameClip)[0]!).end_frames + 1 ∧
          (([⟨0, 10, "a"⟩, ⟨16, 30, "b"⟩] : List FrameClip)[1]!).start_frames -
            (([⟨0, 10, "a"⟩, ⟨16, 30, "b"⟩] : List FrameClip)[0]!).end_frames + 1 ≤
            MIN_GAP_THRESHOLD_FRAMES
       then (([⟨0, 10, "a"⟩, ⟨16, 30, "b"⟩] : List FrameClip)[1]!).start_frames
       else (([⟨0, 10, "a"⟩, ⟨16, 30, "b"⟩] : List FrameClip)[0]!).end_frames) :=
  gap_bridging_step [⟨0, 10, "a"⟩, ⟨16, 30, "b"⟩] 0 (by decide)

lemma sumDurations_cons (x : SpineElem) (xs : List SpineElem) :
    sumDurations (x :: xs) = elemDuration x + sumDurations xs := by
  simp [sumDurations]

lemma serializeSpine_offsets (l : List FrameClip) : ∀ (cursor : ℤ) (i : ℕ),
    i < (serializeSpine cursor l).length →
    elemOffset ((serializeSpine cursor l)[i]!) =
      cursor + sumDurations ((serializeSpine cursor l).take i) := by
  induction l with
  | nil => intro cursor i hi; simp [serializeSpine] at hi
  | cons c cs ih =>
    intro cursor i hi
    by_cases hc : cursor < c.start_frames
    · rw [serializeSpine, if_pos hc] at hi ⊢
      match i with
      | 0 => simp [elemOffset, sumDurations]
      | 1 => simp [elemOffset, sumDurations_cons, elemDuration, sumDurations]
      | Nat.succ (Nat.succ j) =>
        have hj : j < (serializeSpine (c.start_frames + (c.end_frames - c.start_frames + 1)) cs).length := by
          simpa using hi
        have := ih (c.start_frames + (c.end_frames - c.start_frames + 1)) j hj
        simp only [List.getElem!_cons_succ, List.take_succ_cons, sumDurations_cons,
          elemDuration, this]
        ring
    · rw [serializeSpine, if_neg hc] at hi ⊢
      match i with
      | 0 => simp [elemOffset, sumDurations]
      | Nat.succ j =>
        have hj : j < (serializeSpine (cursor + (c.end_frames - c.start_frames + 1)) cs).length := by
          simpa using hi
        have := ih (cursor + (c.end_frames - c.start_frames + 1)) j hj
        simp only [List.getElem!_cons_succ, List.take_succ_cons, sumDurations_cons,
          elemDuration, this]
        ring

lemma serializeSpine_videos (l : List FrameClip) : ∀ (cursor : ℤ),
    (serializeSpine cursor l).filterMap videoRefDur =
      l.map fun fc => (fc.asset_id, fc.end_frames - fc.start_frames + 1) := by
  induction l with
  | nil => intro cursor; simp [serializeSpine]
  | cons c cs ih =>
    intro cursor
    by_cases hc : cursor < c.start_frames
    · rw [serializeSpine, if_pos hc]
      simp [videoRefDur, ih]
    · rw [serializeSpine, if_neg hc]
      simp [videoRefDur, ih]

lemma serializeSpine_ne_nil (l : List FrameClip) (cursor : ℤ) (h : l ≠ []) :
    serializeSpine cursor l ≠ [] := by
  match l, h with
  | c :: cs, _ =>
    rw [serializeSpine]
    split <;> simp

/-- Claim C10: the serialized spine is emitted contiguously from a cursor
starting at frame 0: each element's offset equals the sum of all
previously emitted elements' durations (so elements neither overlap nor
leave implicit holes), and the video elements correspond one-to-one in
order with the processed clips, each emitted at the cursor with inclusive
duration `end_frames - start_frames + 1` - in particular a clip whose
`start_frames` is at or before the cursor is emitted at the cursor
position. -/
theorem spine_contiguous (l : List FrameClip) (i : ℕ)
    (h : i < (serializeSpine 0 l).length) :
    elemOffset ((serializeSpine 0 l)[i]!) = sumDurations ((serializeSpine 0 l).take i) ∧
    (serializeSpine 0 l).filterMap videoRefDur =
      l.map (fun fc => (fc.asset_id, fc.end_frames - fc.start_frames + 1)) := by
  refine ⟨?_, serializeSpine_videos l 0⟩
  have := serializeSpine_offsets l 0 i h
  simpa using this

/-- Witness for `spine_contiguous` at a one-clip list whose clip starts
past frame 0, checking the offset of the emitted video element. -/
theorem spine_contiguous_witness :
    elemOffset ((serializeSpine 0 [⟨5, 10, "a"⟩])[1]!) =
      sumDurations ((serializeSpine 0 [⟨5, 10, "a"⟩]).take 1) ∧
    (serializeSpine 0 [⟨5, 10, "a"⟩]).filterMap videoRefDur =
      [⟨5, 10, "a"⟩].map (fun fc : FrameClip =>
        (fc.asset_id, fc.end_frames - fc.start_frames + 1)) :=
  spine_contiguous [⟨5, 10, "a"⟩] 1 (by decide)

/-- Helper: the last element of a nonempty list through `getElem!`. -/
lemma getLast?_eq_bang {A : Type} [Inhabited A] (l : List A) (h : l ≠ []) :
    l.getLast? = some (l[l.length - 1]!) := by
  have hb : l.length - 1 < l.length := by
    have : 0 < l.length := List.length_pos.mpr h
    omega
  rw [List.getLast?_eq_getElem?, List.getElem?_eq_getElem hb, getElem!_pos l _ hb]

/-- Helper: peeling the last summand of a duration prefix sum. -/
lemma sumDurations_take_succ (es : List SpineElem) : ∀ i, i < es.length →
    sumDurations (es.take (i + 1)) = sumDurations (es.take i) + elemDuration (es[i]!) := by
  induction es with
  | nil => intro i hi; simp at hi
  | cons x xs ih =>
    intro i hi
    match i with
    | 0 => simp [sumDurations]
    | Nat.succ j =>
      have hj : j < xs.length := by simpa [Nat.succ_lt_succ_iff] using hi
      have := ih j hj
      simp only [List.take_succ_cons, sumDurations_cons, this, List.getElem!_cons_succ]
      ring

/-- Claim C4, amended: the summed duration of all emitted gap and clip
elements equals the end (offset plus duration) of the last emitted
element; as `spine_sum_ne_sequence_duration` shows, it does not in
general equal the sequence-duration attribute derived from the last
TimelineEntry's end timestamp. -/
theorem spine_sum_eq_last_elem (l : List FrameClip) (h : l ≠ []) :
    ∃ e, (serializeSpine 0 l).getLast? = some e ∧
      sumDurations (serializeSpine 0 l) = elemOffset e + elemDuration e := by
  have hne := serializeSpine_ne_nil l 0 h
  set es := serializeSpine 0 l with hes
  have hlen : 0 < es.length := List.length_pos.mpr hne
  refine ⟨es[es.length - 1]!, getLast?_eq_bang es hne, ?_⟩
  have hoff := serializeSpine_offsets l 0 (es.length - 1) (by rw [← hes]; omega)
  rw [← hes] at hoff
  have hsum := sumDurations_take_succ es (es.length - 1) (by omega)
  have h2 : es.length - 1 + 1 = es.length := by omega
  rw [h2, List.take_length] at hsum
  rw [hsum, hoff]
  ring

/-- Witness for `spine_sum_eq_last_elem` at a concrete one-clip list. -/
theorem spine_sum_eq_last_elem_witness :
    ∃ e, (serializeSpine 0 [(⟨5, 10, "a"⟩ : FrameClip)]).getLast? = some e ∧
      sumDurations (serializeSpine 0 [(⟨5, 10, "a"⟩ : FrameClip)]) =
        elemOffset e + elemDuration e :=
  spine_sum_eq_last_elem [⟨5, 10, "a"⟩] (by decide)

lemma buildChunksAux_length (units : List String) (base rem : ℕ) :
    ∀ (count i s : ℕ), (buildChunksAux units base rem count i s).length = count := by
  intro count
  induction count with
  | zero => intro i s; rfl
  | succ k ih => intro i s; simp [buildChunksAux, ih]

lemma distributeUnits_length (units : List String) (n : ℕ) :
    (distributeUnits units n).length = n :=
  buildChunksAux_length units _ _ n 0 0

lemma makeSplitsAux_length (s e d : ℚ) (n : ℕ) :
    ∀ (chunks : List String) (i0 : ℕ),
      (makeSplitsAux s e d n i0 chunks).length = chunks.length := by
  intro chunks
  induction chunks with
  | nil => intro i0; rfl
  | cons c rest ih => intro i0; simp [makeSplitsAux, ih]

lemma makeSplitsAux_get (s e d : ℚ) (n : ℕ) :
    ∀ (chunks : List String) (i0 i : ℕ), i < chunks.length →
      (makeSplitsAux s e d n i0 chunks)[i]! =
        ⟨(chunks[i]!).trim, s + ((i0 + i : ℕ) : ℚ) * d,
          if i0 + i = n - 1 then e else s + (((i0 + i : ℕ) : ℚ) + 1) * d, i0 + i⟩ := by
  intro chunks
  induction chunks with
  | nil => intro i0 i hi; simp at hi
  | cons c rest ih =>
    intro i0 i hi
    match i with
    | 0 => simp [makeSplitsAux]
    | Nat.succ j =>
      have hj : j < rest.length := by simpa [Nat.succ_lt_succ_iff] using hi
      have := ih (i0 + 1) j hj
      simp only [makeSplitsAux, List.getElem!_cons_succ, this]
      have harith : i0 + 1 + j = i0 + (j + 1) := by omega
      simp [harith]

lemma ceil_le_one_of_le_three (d : ℚ) (h : d ≤ 3) : ⌈d / 3⌉ ≤ 1 := by
  have h1 : d / 3 ≤ 1 := by linarith
  calc ⌈d / 3⌉ ≤ ⌈(1 : ℚ)⌉ := Int.ceil_le_ceil h1
  _ = 1 := by simp

/-- Claim C8: for every TextSegment of duration `d` the Duration Splitter
produces exactly 1 split when `d <= 3` (N is floored at 1), and
`ceil(d/3)` splits when the word count permits full N-way division
(`1 <= N <= len(words)`; with more words than N the sentence and word
branches both produce exactly N chunks). -/
theorem splitter_count (text : String) (words sentences : List String) (s e : ℚ) :
    (e - s ≤ 3 → (split_subtitle_text text words sentences s e).length = 1) ∧
    (1 ≤ ⌈(e - s) / 3⌉ → ⌈(e - s) / 3⌉ ≤ (words.length : ℤ) →
      (split_subtitle_text text words sentences s e).length = (⌈(e - s) / 3⌉).toNat) := by
  constructor
  · intro h
    have hN : ⌈(e - s) / 3⌉ ≤ 1 := ceil_le_one_of_le_three _ h
    simp [split_subtitle_text, hN]
  · intro h1 h2
    by_cases hN1 : ⌈(e - s) / 3⌉ ≤ 1
    · have : (⌈(e - s) / 3⌉).toNat = 1 := by omega
      simp [split_subtitle_text, hN1, this]
    · rw [split_subtitle_text]
      simp only [hN1, if_false]
      rw [makeSplitsAux_length]
      rw [split_text_into_chunks]
      simp only [hN1, if_false]
      by_cases hw : (words.length : ℤ) ≤ ⌈(e - s) / 3⌉
      · simp only [hw, if_true]
        omega
      · simp only [hw, if_false]
        split <;> rw [distributeUnits_length]

/-- Claim C5, amended: for every TextSegment whose word count is at most
the computed split count N (with `N >= 2`), each word becomes its own
chunk and the emitted split count equals the chunk count; but the time
division still uses N, not the chunk count: every sub-span except the
last has length `duration/N`, and the last split's end is forced to the
segment end, absorbing the remainder. -/
theorem splitter_word_chunks (text : String) (words sentences : List String) (s e : ℚ)
    (hN : 2 ≤ ⌈(e - s) / 3⌉) (hw : (words.length : ℤ) ≤ ⌈(e - s) / 3⌉) :
    (split_subtitle_text text words sentences s e).length = words.length ∧
    (∀ i, i + 1 < words.length →
      ((split_subtitle_text text words sentences s e)[i]!).end_ -
        ((split_subtitle_text text words sentences s e)[i]!).start =
        (e - s) / ((⌈(e - s) / 3⌉ : ℤ) : ℚ)) ∧
    (words ≠ [] →
      ((split_subtitle_text text words sentences s e).getLast?).map TextSplit.end_ = some e) := by
  have hN1 : ¬ ⌈(e - s) / 3⌉ ≤ 1 := by omega
  have hchunks : split_text_into_chunks text words sentences ⌈(e - s) / 3⌉ = words := by
    rw [split_text_into_chunks]
    simp [hN1, hw]
  rw [split_subtitle_text]
  simp only [hN1, if_false, hchunks]
  refine ⟨makeSplitsAux_length _ _ _ _ _ _, ?_, ?_⟩
  · intro i hi
    have hlt : i < words.length := by omega
    rw [makeSplitsAux_get _ _ _ _ words 0 i hlt]
    have hne : 0 + i ≠ words.length - 1 := by omega
    simp only [if_neg hne]
    push_cast
    ring
  · intro hne
    have hlen : (makeSplitsAux s e ((e - s) / ((⌈(e - s) / 3⌉ : ℤ) : ℚ)) words.length 0
        words).length = words.length := makeSplitsAux_length _ _ _ _ _ _
    have hpos : 0 < words.length := List.length_pos.mpr hne
    have hmne : makeSplitsAux s e ((e - s) / ((⌈(e - s) / 3⌉ : ℤ) : ℚ)) words.length 0
        words ≠ [] := by
      intro hcon
      rw [hcon] at hlen
      simp at hlen
      omega
    rw [getLast?_eq_bang _ hmne, hlen,
      makeSplitsAux_get _ _ _ _ words 0 (words.length - 1) (by omega)]
    simp

/-- Witness for `splitter_word_chunks`: two words over seven seconds give
N = 3, two splits, and a first sub-span of length 7/3. -/
theorem splitter_word_chunks_witness :
    (split_subtitle_text "hello world" ["hello", "world"] ["hello world"] 0 7).length =
      (["hello", "world"] : List String).length ∧
    (∀ i, i + 1 < (["hello", "world"] : List String).length →
      ((split_subtitle_text "hello world" ["hello", "world"] ["hello world"] 0 7)[i]!).end_ -
        ((split_subtitle_text "hello world" ["hello", "world"] ["hello world"] 0 7)[i]!).start =
        ((7 : ℚ) - 0) / ((⌈((7 : ℚ) - 0) / 3⌉ : ℤ) : ℚ)) ∧
    ((["hello", "world"] : List String) ≠ [] →
      ((split_subtitle_text "hello world" ["hello", "world"] ["hello world"] 0 7).getLast?).map
        TextSplit.end_ = some 7) := by
  have hC : (⌈(7 : ℚ) / 3⌉ : ℤ) = 3 := by
    rw [Int.ceil_eq_iff]
    norm_num
  refine splitter_word_chunks "hello world" ["hello", "world"] ["hello world"] 0 7 ?_ ?_ <;>
    · rw [show ((7 : ℚ) - 0) = 7 by norm_num, hC]
      norm_num

lemma get_eq_bang {A : Type} [Inhabited A] (l : List A) (i : ℕ) (hb : i < l.length) :
    l.get ⟨i, hb⟩ = l[i]! := by
  rw [List.get_eq_getElem, getElem!_pos l i hb]

lemma makeSplitsAux_head (s e d : ℚ) (n : ℕ) (chunks : List String) (h : chunks ≠ []) :
    ((makeSplitsAux s e d n 0 chunks).head?).map TextSplit.start = some s := by
  match chunks, h with
  | c :: rest, _ =>
    simp [makeSplitsAux]

lemma makeSplitsAux_chain (s e d : ℚ) (chunks : List String) :
    List.Chain' (fun a b => a.end_ = b.start)
      (makeSplitsAux s e d chunks.length 0 chunks) := by
  rw [List.chain'_iff_get]
  intro i hi
  rw [makeSplitsAux_length] at hi
  have hi1 : i < chunks.length := by omega
  have hi2 : i + 1 < chunks.length := by omega
  have hb1 : i < (makeSplitsAux s e d chunks.length 0 chunks).length := by
    rw [makeSplitsAux_length]; omega
  have hb2 : i + 1 < (makeSplitsAux s e d chunks.length 0 chunks).length := by
    rw [makeSplitsAux_length]; omega
  rw [get_eq_bang _ i hb1, get_eq_bang _ (i + 1) hb2,
    makeSplitsAux_get _ _ _ _ chunks 0 i hi1,
    makeSplitsAux_get _ _ _ _ chunks 0 (i + 1) hi2]
  have hne2 : 0 + i ≠ chunks.length - 1 := by omega
  simp only [if_neg hne2]
  push_cast
  ring

/-- Claim C9, amended: whenever at least one split is emitted - which
holds exactly when the tokenized word list is nonempty or the computed
split count is at most 1 - the splits of one TextSegment tile its
TimeSpan exactly: the first split starts at the segment start, the last
ends at the segment end, and consecutive splits share their boundary. -/
theorem splitter_tiles (text : String) (words sentences : List String) (s e : ℚ)
    (h : words ≠ [] ∨ ⌈(e - s) / 3⌉ ≤ 1) :
    TilesSpan (split_subtitle_text text words sentences s e) s e := by
  by_cases hN1 : ⌈(e - s) / 3⌉ ≤ 1
  · rw [split_subtitle_text]
    simp only [hN1, if_true]
    refine ⟨by simp, by simp, by simp⟩
  · have hw : words ≠ [] := h.resolve_right hN1
    have hN2 : 2 ≤ ⌈(e - s) / 3⌉ := by omega
    rw [split_subtitle_text]
    simp only [hN1, if_false]
    set chunks := split_text_into_chunks text words sentences ⌈(e - s) / 3⌉ with hch
    have hchne : chunks ≠ [] := by
      rw [hch, split_text_into_chunks]
      simp only [hN1, if_false]
      by_cases hwn : (words.length : ℤ) ≤ ⌈(e - s) / 3⌉
      · simpa [hwn] using hw
      · simp only [hwn, if_false]
        split <;>
        · intro hcon
          have hl := congrArg List.length hcon
          rw [distributeUnits_length] at hl
          simp at hl
          omega
    have hclen : 0 < chunks.length := List.length_pos.mpr hchne
    refine ⟨makeSplitsAux_head _ _ _ _ chunks hchne, ?_, makeSplitsAux_chain _ _ _ chunks⟩
    have hmlen := makeSplitsAux_length s e ((e - s) / ((⌈(e - s) / 3⌉ : ℤ) : ℚ))
      chunks.length chunks 0
    have hmne : makeSplitsAux s e ((e - s) / ((⌈(e - s) / 3⌉ : ℤ) : ℚ))
        chunks.length 0 chunks ≠ [] := by
      intro hcon
      rw [hcon] at hmlen
      simp at hmlen
      omega
    rw [getLast?_eq_bang _ hmne, hmlen,
      makeSplitsAux_get _ _ _ _ chunks 0 (chunks.length - 1) (by omega)]
    simp

/-- Claim C2, evaluated at the failing input: on the well-formed clip
list `[(0,10),(5,10),(0,20)]` the Overlap Resolver raises
(`AttributeError` on `None.end`, modelled by `none`): the clip `(5,10)`
is trimmed to zero duration and dropped into a `None` slot, and the next
iteration dereferences that array-adjacent slot.  This refutes the
claimed totality; the claim is recorded as a code bug since the code's
own `None`-filtering shows drops were intended to be harmless. -/
theorem resolver_crash :
    resolveOverlaps [⟨0, 10, "a"⟩, ⟨5, 10, "b"⟩, ⟨0, 20, "c"⟩] = none := by
  decide

/-- Claim C1, counterexample: the Overlap Resolver does not return an
output at all on this input Clip list (the walk references the
array-adjacent slot, which holds `None` after the mid-list drop of
`(5,10)`, and raises), so the universally quantified output properties
fail as stated. -/
theorem resolver_not_total :
    resolveOverlaps [⟨0, 10, "a"⟩, ⟨5, 10, "b"⟩, ⟨0, 30, "c"⟩] = none := by
  decide

/-- Claim C7, counterexample: `time_to_seconds` accepts `"0:0:0"` (one
digit per field) and returns 0.0, while the claim says parsing fails
whenever hours, minutes and whole seconds are not two digits each. -/
theorem parse_accepts_short_fields : time_to_seconds "0:0:0" = some 0 := by
  simp [time_to_seconds, timeToSecondsChars, pyInt, pyStrip, parseDigits, digitsVal,
    digitVal, commaToDot, splitOnChar]

/-- Claim C5, counterexample: for the segment `"hello world"` spanning
0-7s the splitter computes N = 3, emits 2 word chunks, and gives the
first split length 7/3 (duration/N), not 7/2 (duration/chunk count) as
the claim states. -/
theorem splitter_divides_by_N_not_chunks :
    (split_subtitle_text "hello world" ["hello", "world"] ["hello world"] 0 7).length = 2 ∧
    ((split_subtitle_text "hello world" ["hello", "world"] ["hello world"] 0 7)[0]!).end_ -
      ((split_subtitle_text "hello world" ["hello", "world"] ["hello world"] 0 7)[0]!).start =
      7 / 3 ∧
    (7 : ℚ) / 3 ≠ 7 / 2 := by
  have hN : (⌈(7 : ℚ) / 3⌉ : ℤ) = 3 := by
    rw [Int.ceil_eq_iff]
    norm_num
  refine ⟨?_, ?_, by norm_num⟩ <;>
    simp [split_subtitle_text, hN, split_text_into_chunks, makeSplitsAux]

/-- Claim C9, counterexample: a segment whose text tokenizes to zero
words with duration 7s yields zero chunks and therefore zero splits,
which do not tile the span 0-7. -/
theorem splitter_empty_words_no_tiling :
    ¬ TilesSpan (split_subtitle_text "" [] [] 0 7) 0 7 := by
  have hN : (⌈(7 : ℚ) / 3⌉ : ℤ) = 3 := by
    rw [Int.ceil_eq_iff]
    norm_num
  simp [split_subtitle_text, hN, split_text_into_chunks, makeSplitsAux, TilesSpan]

/-- Claim C4, counterexample: a timeline with one entry spanning 0s-10s
and one image serializes to a single video element of 241 frames
(inclusive `+1` duration), while the sequence-duration attribute derived
from the last entry's end is `int(10*24) = 240`, so the summed element
durations do not equal the total sequence duration. -/
theorem spine_sum_ne_sequence_duration :
    (pipelineSpine [⟨"00:00:00,000", "00:00:10,000", ["img"]⟩]).map sumDurations = some 241 ∧
    totalDurationFrames [⟨"00:00:00,000", "00:00:10,000", ["img"]⟩] = some 240 ∧
    (241 : ℤ) ≠ 240 := by
  have h0 : time_to_seconds "00:00:00,000" = some 0 := by
    simp [time_to_seconds, timeToSecondsChars, pyInt, pyStrip, parseDigits, digitsVal,
      digitVal, commaToDot, splitOnChar]
  have h10 : time_to_seconds "00:00:10,000" = some 10 := by
    simp [time_to_seconds, timeToSecondsChars, pyInt, pyStrip, parseDigits, digitsVal,
      digitVal, commaToDot, splitOnChar]
  have hassets : buildAssets [⟨"00:00:00,000", "00:00:10,000", ["img"]⟩] = [("img", "r1")] := by
    decide
  refine ⟨?_, ?_, by norm_num⟩
  · simp [pipelineSpine, allClips, allClipsAux, entryClips, h0, h10, hassets, clipsOfImages,
      resolveOverlaps, sortClipsByEnd, fixAux, toFrameClip, seconds_to_frames, pyTrunc,
      bridgeGaps, bridgeAux, serializeSpine, sumDurations, elemDuration]
    norm_num
  · simp [totalDurationFrames, h10, pyTrunc]
    norm_num


lemma fixAux_walk : ∀ (cs : List Clip) (p : Clip) (slots : List (Option Clip)),
    fixAux (some p) cs = some slots →
    (∀ c ∈ cs, p.end_ ≤ c.end_) →
    List.Sorted (fun a b : Clip => a.end_ ≤ b.end_) cs →
    (∀ c ∈ cs, c.start < c.end_) →
    p.start < p.end_ →
    List.Chain (fun a b : Clip => a.end_ ≤ b.start) p (slots.filterMap id) ∧
    (∀ c ∈ slots.filterMap id, c.start < c.end_) ∧
    ∃ l2, l2.Sublist cs ∧ List.Forall₂ trimmedFrom (slots.filterMap id) l2 := by
  intro cs
  induction cs with
  | nil =>
    intro p slots h hmin hsort hpos hp
    simp only [fixAux, Option.some.injEq] at h
    subst h
    exact ⟨List.Chain.nil, by simp, [], List.Sublist.refl _, List.Forall₂.nil⟩
  | cons c cs2 ih =>
    intro p slots h hmin hsort hpos hp
    simp only [fixAux] at h
    obtain ⟨slots2, hrec, rfl⟩ := Option.map_eq_some'.mp h
    have hcmem : c ∈ c :: cs2 := List.mem_cons_self c cs2
    have hcend : p.end_ ≤ c.end_ := hmin c hcmem
    have hcpos : c.start < c.end_ := hpos c hcmem
    obtain ⟨hmin2, hsort2⟩ := List.sorted_cons.mp hsort
    have hpos2 : ∀ x ∈ cs2, x.start < x.end_ := fun x hx => hpos x (List.mem_cons_of_mem c hx)
    by_cases hov : c.start < p.end_
    · by_cases hdrop : c.end_ ≤ max c.start p.end_
      · have hslot : fixStep p c = none := by
          rw [fixStep, if_pos hov, if_pos hdrop]
        rw [hslot] at hrec ⊢
        match cs2, hrec with
        | [], hrec =>
          simp only [fixAux, Option.some.injEq] at hrec
          subst hrec
          simp only [List.filterMap_cons, id, List.filterMap_nil]
          exact ⟨List.Chain.nil, by simp, [], List.nil_sublist _, List.Forall₂.nil⟩
      · have hslot : fixStep p c = some { c with start := max c.start p.end_ } := by
          rw [fixStep, if_pos hov, if_neg hdrop]
        rw [hslot] at hrec ⊢
        have hc2pos : ({ c with start := max c.start p.end_ } : Clip).start <
            ({ c with start := max c.start p.end_ } : Clip).end_ := lt_of_not_le hdrop
        obtain ⟨hchain, hposout, l2, hsub, hf2⟩ :=
          ih { c with start := max c.start p.end_ } slots2 hrec hmin2 hsort2 hpos2 hc2pos
        simp only [List.filterMap_cons, id]
        refine ⟨?_, ?_, c :: l2, List.Sublist.cons₂ c hsub, ?_⟩
        · exact List.Chain.cons (le_max_right c.start p.end_) hchain
        · intro x hx
          rcases List.mem_cons.mp hx with hx1 | hx2
          · subst hx1; exact hc2pos
          · exact hposout x hx2
        · exact List.Forall₂.cons ⟨rfl, rfl, le_max_left c.start p.end_⟩ hf2
    · have hslot : fixStep p c = some c := by
        rw [fixStep, if_neg hov]
      rw [hslot] at hrec ⊢
      obtain ⟨hchain, hposout, l2, hsub, hf2⟩ := ih c slots2 hrec hmin2 hsort2 hpos2 hcpos
      simp only [List.filterMap_cons, id]
      refine ⟨?_, ?_, c :: l2, List.Sublist.cons₂ c hsub, ?_⟩
      · exact List.Chain.cons (le_of_not_lt hov) hchain
      · intro x hx
        rcases List.mem_cons.mp hx with hx1 | hx2
        · subst hx1; exact hcpos
        · exact hposout x hx2
      · exact List.Forall₂.cons ⟨rfl, rfl, le_refl c.start⟩ hf2

lemma chain_start_lt (out : List Clip) (hpos : ∀ c ∈ out, c.start < c.end_)
    (hc : List.Chain' (fun a b : Clip => a.end_ ≤ b.start) out) :
    List.Chain' (fun a b : Clip => a.start < b.start) out := by
  rw [List.chain'_iff_get] at hc ⊢
  intro i hi
  have h1 := hc i hi
  have h2 := hpos (out.get ⟨i, by omega⟩) (List.get_mem out i (by omega))
  exact lt_of_lt_of_le h2 h1

/-- Claim C1, amended: for every input Clip list of positive-duration
clips on which the Overlap Resolver completes without raising, the
output is pairwise non-overlapping (`output[i].end <= output[i+1].start`),
sorted by start time, and a subsequence of the stably end-sorted input
with ends and identities unchanged and only start times trimmed upward.
The walk's comparison reference is the array-adjacent slot; on completed
runs it always holds the last clip retained. -/
theorem resolver_sound (clips : List Clip) (hpos : ∀ c ∈ clips, c.start < c.end_)
    (out : List Clip) (h : resolveOverlaps clips = some out) :
    List.Chain' (fun a b : Clip => a.end_ ≤ b.start) out ∧
    List.Chain' (fun a b : Clip => a.start < b.start) out ∧
    ∃ l2, l2.Sublist (sortClipsByEnd clips) ∧ List.Forall₂ trimmedFrom out l2 := by
  have hposs : ∀ c ∈ sortClipsByEnd clips, c.start < c.end_ := by
    intro x hx
    exact hpos x ((List.perm_insertionSort _ clips).mem_iff.mp hx)
  have hsorted : List.Sorted (fun a b : Clip => a.end_ ≤ b.end_) (sortClipsByEnd clips) :=
    List.sorted_insertionSort _ clips
  rw [resolveOverlaps] at h
  rcases hs : sortClipsByEnd clips with _ | ⟨c, cs⟩
  · rw [hs] at h
    simp only [Option.some.injEq] at h
    subst h
    exact ⟨List.chain'_nil, List.chain'_nil, [], List.nil_sublist _, List.Forall₂.nil⟩
  · rw [hs] at h hposs hsorted
    obtain ⟨slots, hrec, rfl⟩ := Option.map_eq_some'.mp h
    obtain ⟨hmin2, hsort2⟩ := List.sorted_cons.mp hsorted
    have hcpos : c.start < c.end_ := hposs c (List.mem_cons_self c cs)
    have hpos2 : ∀ x ∈ cs, x.start < x.end_ := fun x hx =>
      hposs x (List.mem_cons_of_mem c hx)
    obtain ⟨hchain, hposout, l2, hsub, hf2⟩ :=
      fixAux_walk cs c slots hrec hmin2 hsort2 hpos2 hcpos
    have hposall : ∀ x ∈ c :: slots.filterMap id, x.start < x.end_ := by
      intro x hx
      rcases List.mem_cons.mp hx with hx1 | hx2
      · subst hx1; exact hcpos
      · exact hposout x hx2
    have hchain2 : List.Chain' (fun a b : Clip => a.end_ ≤ b.start)
        (c :: slots.filterMap id) := hchain
    refine ⟨hchain2, chain_start_lt _ hposall hchain2, c :: l2, ?_, ?_⟩
    · exact List.Sublist.cons₂ c hsub
    · exact List.Forall₂.cons ⟨rfl, rfl, le_refl c.start⟩ hf2

/-- Witness for `resolver_sound` on a completing two-clip input given in
unsorted order. -/
theorem resolver_sound_witness :
    List.Chain' (fun a b : Clip => a.end_ ≤ b.start) [⟨0, 1, "a"⟩, ⟨2, 3, "b"⟩] ∧
    List.Chain' (fun a b : Clip => a.start < b.start) [⟨0, 1, "a"⟩, ⟨2, 3, "b"⟩] ∧
    ∃ l2, l2.Sublist (sortClipsByEnd [⟨2, 3, "b"⟩, ⟨0, 1, "a"⟩]) ∧
      List.Forall₂ trimmedFrom [⟨0, 1, "a"⟩, ⟨2, 3, "b"⟩] l2 :=
  resolver_sound [⟨2, 3, "b"⟩, ⟨0, 1, "a"⟩] (by decide) [⟨0, 1, "a"⟩, ⟨2, 3, "b"⟩] (by decide)

/-- Witness for `splitter_count`: a 2s segment gives one split, and a 7s
segment with four words gives `ceil(7/3) = 3` splits. -/
theorem splitter_count_witness :
    (split_subtitle_text "hi there" ["hi", "there"] ["hi there"] 0 2).length = 1 ∧
    (split_subtitle_text "a b c d" ["a", "b", "c", "d"] ["a b c d"] 0 7).length =
      (⌈((7 : ℚ) - 0) / 3⌉).toNat := by
  have hC : (⌈(7 : ℚ) / 3⌉ : ℤ) = 3 := by
    rw [Int.ceil_eq_iff]
    norm_num
  refine ⟨(splitter_count "hi there" ["hi", "there"] ["hi there"] 0 2).1 (by norm_num),
    (splitter_count "a b c d" ["a", "b", "c", "d"] ["a b c d"] 0 7).2 ?_ ?_⟩ <;>
    · rw [show ((7 : ℚ) - 0) = 7 by norm_num, hC]
      norm_num

/-- Witness for `splitter_tiles` at a concrete short segment. -/
theorem splitter_tiles_witness :
    TilesSpan (split_subtitle_text "hi there" ["hi", "there"] ["hi there"] 0 2) 0 2 :=
  splitter_tiles "hi there" ["hi", "there"] ["hi there"] 0 2 (Or.inl (by simp))

lemma natDigitsF_eq : ∀ (fuel n : ℕ), n ≤ fuel → natDigitsF fuel n = Nat.digits 10 n := by
  intro fuel
  induction fuel with
  | zero =>
    intro n h
    have : n = 0 := by omega
    subst this
    simp [natDigitsF]
  | succ f ih =>
    intro n h
    match n with
    | 0 => simp [natDigitsF]
    | Nat.succ m =>
      rw [natDigitsF, Nat.digits_def' (by norm_num : (1:ℕ) < 10) (Nat.succ_pos m)]
      have hdiv := Nat.div_lt_self (Nat.succ_pos m) (show 1 < 10 by norm_num)
      rw [ih ((m + 1) / 10) (by omega)]

lemma digitVal_char (d : ℕ) (h : d < 10) : digitVal (Char.ofNat (48 + d)) = d := by
  interval_cases d <;> rfl

lemma isDigit_char (d : ℕ) (h : d < 10) : (Char.ofNat (48 + d)).isDigit = true := by
  interval_cases d <;> rfl

lemma natToChars_digits (n : ℕ) : ∀ c ∈ natToChars n, c.isDigit = true := by
  intro c hc
  rw [natToChars] at hc
  by_cases h0 : n = 0
  · simp [h0] at hc
    subst hc
    rfl
  · rw [if_neg h0] at hc
    rw [List.mem_reverse, List.mem_map] at hc
    obtain ⟨d, hd, rfl⟩ := hc
    rw [natDigitsF_eq n n (le_refl n)] at hd
    exact isDigit_char d (Nat.digits_lt_base (by norm_num) hd)

lemma natToChars_ne_nil (n : ℕ) : natToChars n ≠ [] := by
  rw [natToChars]
  by_cases h0 : n = 0
  · simp [h0]
  · rw [if_neg h0]
    simp only [ne_eq, List.reverse_eq_nil_iff, List.map_eq_nil_iff]
    rw [natDigitsF_eq n n (le_refl n)]
    exact Nat.digits_ne_nil_iff_ne_zero.mpr h0

lemma digitsVal_rev_map (ds : List ℕ) (h : ∀ d ∈ ds, d < 10) :
    digitsVal ((ds.map fun d => Char.ofNat (48 + d)).reverse) = Nat.ofDigits 10 ds := by
  induction ds with
  | nil => rfl
  | cons d tl ih =>
    have hd : d < 10 := h d (List.mem_cons_self d tl)
    have htl : ∀ x ∈ tl, x < 10 := fun x hx => h x (List.mem_cons_of_mem d hx)
    rw [List.map_cons, List.reverse_cons]
    rw [digitsVal, List.foldl_append]
    rw [show List.foldl (fun a c => 10 * a + digitVal c) 0
        ((tl.map fun d => Char.ofNat (48 + d)).reverse) =
      digitsVal ((tl.map fun d => Char.ofNat (48 + d)).reverse) from rfl]
    rw [ih htl, Nat.ofDigits_cons]
    simp only [List.foldl_cons, List.foldl_nil, digitVal_char d hd]
    ring

lemma digitsVal_natToChars (n : ℕ) : digitsVal (natToChars n) = n := by
  rw [natToChars]
  by_cases h0 : n = 0
  · simp [h0]
    rfl
  · rw [if_neg h0, natDigitsF_eq n n (le_refl n)]
    rw [digitsVal_rev_map _ (fun d hd => Nat.digits_lt_base (by norm_num) hd)]
    exact Nat.ofDigits_digits 10 n

lemma digitsVal_pad (k : ℕ) (l : List Char) :
    digitsVal (List.replicate k '0' ++ l) = digitsVal l := by
  induction k with
  | zero => rfl
  | succ m ih =>
    rw [List.replicate_succ, List.cons_append]
    rw [digitsVal, List.foldl_cons]
    have : 10 * 0 + digitVal '0' = 0 := rfl
    rw [this]
    exact ih

lemma parseDigits_padded (w n : ℕ) :
    parseDigits (leftPadZeros w (natToChars n)) = some n := by
  rw [parseDigits, leftPadZeros, if_pos, digitsVal_pad, digitsVal_natToChars]
  constructor
  · simp [natToChars_ne_nil n]
  · rw [List.all_eq_true]
    intro c hc
    rcases List.mem_append.mp hc with h1 | h2
    · rw [List.eq_of_mem_replicate h1]
      rfl
    · exact natToChars_digits n c h2

lemma dropWhile_eq_self_of_none {p : Char → Bool} (l : List Char)
    (h : ∀ c ∈ l, p c = false) : l.dropWhile p = l := by
  cases l with
  | nil => rfl
  | cons c rest => simp [List.dropWhile_cons, h c (List.mem_cons_self c rest)]

lemma pyStrip_eq_self (l : List Char) (h : ∀ c ∈ l, c.isWhitespace = false) :
    pyStrip l = l := by
  rw [pyStrip, dropWhile_eq_self_of_none l h, dropWhile_eq_self_of_none l.reverse
    (fun c hc => h c (List.mem_reverse.mp hc)), List.reverse_reverse]

lemma isDigit_not_ws (c : Char) (h : c.isDigit = true) : c.isWhitespace = false := by
  have hs : c ≠ ' ' := by rintro rfl; exact absurd h (by decide)
  have ht : c ≠ '\t' := by rintro rfl; exact absurd h (by decide)
  have hr : c ≠ '\r' := by rintro rfl; exact absurd h (by decide)
  have hn : c ≠ '\n' := by rintro rfl; exact absurd h (by decide)
  rw [Char.isWhitespace]
  simp [hs, ht, hr, hn]

lemma isDigit_ne_minus (c : Char) (h : c.isDigit = true) : c ≠ '-' := by
  intro hc
  subst hc
  simp [Char.isDigit] at h

lemma isDigit_ne_plus (c : Char) (h : c.isDigit = true) : c ≠ '+' := by
  intro hc
  subst hc
  simp [Char.isDigit] at h

lemma pyInt_digits (l : List Char) (hne : l ≠ []) (hd : ∀ c ∈ l, c.isDigit = true) :
    pyInt l = some ((digitsVal l : ℕ) : ℤ) := by
  have hstrip : pyStrip l = l := pyStrip_eq_self l (fun c hc => isDigit_not_ws c (hd c hc))
  have hparse : parseDigits l = some (digitsVal l) := by
    rw [parseDigits, if_pos]
    exact ⟨hne, List.all_eq_true.mpr hd⟩
  rw [pyInt, hstrip]
  match l, hne with
  | c :: rest, _ =>
    have hcd := hd c (List.mem_cons_self c rest)
    have hm := isDigit_ne_minus c hcd
    have hp := isDigit_ne_plus c hcd
    split
    · rename_i heq
      exact absurd (List.cons_eq_cons.mp heq).1 hm
    · rename_i heq
      exact absurd (List.cons_eq_cons.mp heq).1 hp
    · simp [hparse]

lemma pyInt_neg_digits (l : List Char) (hne : l ≠ []) (hd : ∀ c ∈ l, c.isDigit = true) :
    pyInt ('-' :: l) = some (-((digitsVal l : ℕ) : ℤ)) := by
  have hstrip : pyStrip ('-' :: l) = '-' :: l := by
    refine pyStrip_eq_self _ ?_
    intro c hc
    rcases List.mem_cons.mp hc with h1 | h2
    · subst h1; rfl
    · exact isDigit_not_ws c (hd c h2)
  have hparse : parseDigits l = some (digitsVal l) := by
    rw [parseDigits, if_pos]
    exact ⟨hne, List.all_eq_true.mpr hd⟩
  rw [pyInt, hstrip]
  simp [hparse]

lemma splitOnChar_ne_nil (sep : Char) (l : List Char) : splitOnChar sep l ≠ [] := by
  cases l with
  | nil => simp [splitOnChar]
  | cons c cs =>
    rw [splitOnChar]
    rcases h : splitOnChar sep cs with _ | ⟨t, ts⟩
    · simp
    · by_cases hc : c = sep <;> simp [hc]

lemma splitOnChar_not_mem (sep : Char) (l : List Char) (h : sep ∉ l) :
    splitOnChar sep l = [l] := by
  induction l with
  | nil => rfl
  | cons c cs ih =>
    have hc : c ≠ sep := fun hc => h (hc ▸ List.mem_cons_self c cs)
    have hcs : sep ∉ cs := fun hx => h (List.mem_cons_of_mem c hx)
    rw [splitOnChar, ih hcs]
    simp [hc]

lemma splitOnChar_append (sep : Char) (a r : List Char) (h : sep ∉ a) :
    splitOnChar sep (a ++ sep :: r) = a :: splitOnChar sep r := by
  induction a with
  | nil =>
    rw [List.nil_append, splitOnChar]
    rcases hr : splitOnChar sep r with _ | ⟨t, ts⟩
    · exact absurd hr (splitOnChar_ne_nil sep r)
    · simp
  | cons c a2 ih =>
    have hc : c ≠ sep := fun hc => h (hc ▸ List.mem_cons_self c a2)
    have ha2 : sep ∉ a2 := fun hx => h (List.mem_cons_of_mem c hx)
    rw [List.cons_append, splitOnChar, ih ha2]
    simp [hc]

lemma commaToDot_id (l : List Char) (h : ',' ∉ l) : commaToDot l = l := by
  induction l with
  | nil => rfl
  | cons c cs ih =>
    have hc : c ≠ ',' := fun hc => h (hc ▸ List.mem_cons_self c cs)
    have hcs : (',' : Char) ∉ cs := fun hx => h (List.mem_cons_of_mem c hx)
    rw [commaToDot] at ih ⊢
    simp [hc, ih hcs]

lemma commaToDot_dotToComma (l : List Char) (h : ',' ∉ l) :
    commaToDot (dotToComma l) = l := by
  induction l with
  | nil => rfl
  | cons c cs ih =>
    have hc : c ≠ ',' := fun hc => h (hc ▸ List.mem_cons_self c cs)
    have hcs : (',' : Char) ∉ cs := fun hx => h (List.mem_cons_of_mem c hx)
    rw [dotToComma, commaToDot] at ih ⊢
    simp only [List.map_cons, List.map_map] at ih ⊢
    rw [List.cons.injEq]
    constructor
    · by_cases hd : c = '.' <;> simp [hd, hc]
    · exact ih hcs

lemma leftPad_digits (w n : ℕ) : ∀ c ∈ leftPadZeros w (natToChars n), c.isDigit = true := by
  intro c hc
  rcases List.mem_append.mp hc with h1 | h2
  · rw [List.eq_of_mem_replicate h1]
    rfl
  · exact natToChars_digits n c h2

lemma leftPad_ne_nil (w : ℕ) (n : ℕ) : leftPadZeros w (natToChars n) ≠ [] := by
  rw [leftPadZeros]
  simp [natToChars_ne_nil n]

lemma pyInt_padIntZeros (w : ℕ) (z : ℤ) : pyInt (padIntZeros w z) = some z := by
  rw [padIntZeros]
  by_cases hz : z < 0
  · rw [if_pos hz]
    rw [pyInt_neg_digits _ (natToChars_ne_nil _) (natToChars_digits _)]
    rw [digitsVal_natToChars]
    congr 1
    omega
  · rw [if_neg hz]
    rw [pyInt_digits _ (leftPad_ne_nil w _) (leftPad_digits w _)]
    rw [leftPadZeros, digitsVal_pad, digitsVal_natToChars]
    congr 1
    omega

lemma padIntZeros_classes (w : ℕ) (z : ℤ) :
    ∀ c ∈ padIntZeros w z, c.isDigit = true ∨ c = '-' := by
  intro c hc
  rw [padIntZeros] at hc
  by_cases hz : z < 0
  · rw [if_pos hz] at hc
    rcases List.mem_cons.mp hc with h1 | h2
    · exact Or.inr h1
    · exact Or.inl (natToChars_digits _ c h2)
  · rw [if_neg hz] at hc
    exact Or.inl (leftPad_digits w _ c hc)

lemma digit_ne_colon (c : Char) (h : c.isDigit = true) : c ≠ ':' := by
  rintro rfl
  exact absurd h (by decide)

lemma digit_ne_comma (c : Char) (h : c.isDigit = true) : c ≠ ',' := by
  rintro rfl
  exact absurd h (by decide)

lemma digit_ne_dot (c : Char) (h : c.isDigit = true) : c ≠ '.' := by
  rintro rfl
  exact absurd h (by decide)

lemma padIntZeros_no_colon (w : ℕ) (z : ℤ) : (':' : Char) ∉ padIntZeros w z := by
  intro hc
  rcases padIntZeros_classes w z ':' hc with h1 | h2
  · exact digit_ne_colon ':' h1 rfl
  · exact absurd h2 (by decide)

lemma padIntZeros_no_dot (w : ℕ) (z : ℤ) : ('.' : Char) ∉ padIntZeros w z := by
  intro hc
  rcases padIntZeros_classes w z '.' hc with h1 | h2
  · exact digit_ne_dot '.' h1 rfl
  · exact absurd h2 (by decide)

lemma padIntZeros_no_comma (w : ℕ) (z : ℤ) : (',' : Char) ∉ padIntZeros w z := by
  intro hc
  rcases padIntZeros_classes w z ',' hc with h1 | h2
  · exact digit_ne_comma ',' h1 rfl
  · exact absurd h2 (by decide)

lemma leftPad_no_colon (w n : ℕ) : (':' : Char) ∉ leftPadZeros w (natToChars n) := by
  intro hc
  exact digit_ne_colon ':' (leftPad_digits w n ':' hc) rfl

lemma leftPad_no_dot (w n : ℕ) : ('.' : Char) ∉ leftPadZeros w (natToChars n) := by
  intro hc
  exact digit_ne_dot '.' (leftPad_digits w n '.' hc) rfl

lemma leftPad_no_comma (w n : ℕ) : (',' : Char) ∉ leftPadZeros w (natToChars n) := by
  intro hc
  exact digit_ne_comma ',' (leftPad_digits w n ',' hc) rfl

lemma roundThousandths_exact (secs : ℚ) (m : ℤ) (h : secs * 1000 = (m : ℚ)) :
    roundThousandths secs = m := by
  rw [roundThousandths]
  simp only [h, Int.floor_intCast, sub_self]
  norm_num

lemma time_format_roundtrip (k : ℤ) :
    timeToSecondsChars (secondsToTimeChars ((k : ℚ) / 1000)) = some ((k : ℚ) / 1000) := by
  set x : ℚ := (k : ℚ) / 1000 with hx
  have hk : x * 1000 = (k : ℚ) := by
    rw [hx]
    field_simp
  rw [secondsToTimeChars]
  set H : ℤ := ⌊x / 3600⌋ with hH
  set M : ℤ := ⌊(x - 3600 * (H : ℚ)) / 60⌋ with hM
  set F : ℤ := ⌊x / 60⌋ with hF
  set secs : ℚ := x - 60 * (F : ℚ) with hsecs
  set m : ℤ := k - 60000 * F with hm
  have hsm : secs * 1000 = (m : ℚ) := by
    have h1 : secs * 1000 = x * 1000 - 60000 * (F : ℚ) := by
      rw [hsecs]
      ring
    rw [h1, hk, hm]
    push_cast
    ring
  have hF1 : (F : ℚ) ≤ x / 60 := Int.floor_le _
  have hF2 : x / 60 < (F : ℚ) + 1 := Int.lt_floor_add_one _
  have hs0 : 0 ≤ secs := by
    rw [hsecs]
    nlinarith [hF1]
  have hs60 : secs < 60 := by
    rw [hsecs]
    nlinarith [hF2]
  have hm0 : (0 : ℤ) ≤ m := by
    have : (0 : ℚ) ≤ (m : ℚ) := by
      rw [← hsm]
      nlinarith [hs0]
    exact_mod_cast this
  have hm6 : m < 60000 := by
    have : (m : ℚ) < 60000 := by
      rw [← hsm]
      nlinarith [hs60]
    exact_mod_cast this
  have hH1 : (H : ℚ) ≤ x / 3600 := Int.floor_le _
  have hH2 : x / 3600 < (H : ℚ) + 1 := Int.lt_floor_add_one _
  have hM0 : (0 : ℤ) ≤ M := by
    rw [hM]
    apply Int.floor_nonneg.mpr
    have : 0 ≤ x - 3600 * (H : ℚ) := by nlinarith [hH1]
    positivity
  have hM59 : M ≤ 59 := by
    have : M < 60 := by
      rw [hM]
      apply Int.floor_lt.mpr
      push_cast
      have : x - 3600 * (H : ℚ) < 3600 := by nlinarith [hH2]
      linarith
    omega
  have hFHM : F = 60 * H + M := by
    have h1 : (x - 3600 * (H : ℚ)) / 60 = x / 60 - ((60 * H : ℤ) : ℚ) := by
      push_cast
      ring
    have h2 : M = F - 60 * H := by
      rw [hM, h1, Int.floor_sub_int, ← hF]
    omega
  have hfs : formatSecs secs =
      padIntZeros 2 (m / 1000) ++ '.' :: leftPadZeros 3 (natToChars (m % 1000).toNat) := by
    rw [formatSecs, roundThousandths_exact secs m hsm]
  rw [hfs]
  simp only [List.cons_append, List.append_assoc]
  have hnc : (',' : Char) ∉ (padIntZeros 2 H ++ ':' :: (padIntZeros 2 M ++ ':' ::
      (padIntZeros 2 (m / 1000) ++ '.' ::
        leftPadZeros 3 (natToChars (m % 1000).toNat)))) := by
    intro hmem
    simp only [List.mem_append, List.mem_cons] at hmem
    rcases hmem with h | h | h | h | h | h
    · exact padIntZeros_no_comma 2 H h
    · exact absurd h (by decide)
    · exact padIntZeros_no_comma 2 M h
    · exact absurd h (by decide)
    · exact padIntZeros_no_comma 2 (m / 1000) h
    · rcases h with h | h
      · exact absurd h (by decide)
      · exact leftPad_no_comma 3 _ h
  rw [timeToSecondsChars, commaToDot_dotToComma _ hnc]
  rw [splitOnChar_append ':' _ _ (padIntZeros_no_colon 2 H)]
  rw [splitOnChar_append ':' _ _ (padIntZeros_no_colon 2 M)]
  have hnc3 : (':' : Char) ∉ (padIntZeros 2 (m / 1000) ++ '.' ::
      leftPadZeros 3 (natToChars (m % 1000).toNat)) := by
    intro hmem
    simp only [List.mem_append, List.mem_cons] at hmem
    rcases hmem with h | h | h
    · exact padIntZeros_no_colon 2 (m / 1000) h
    · exact absurd h (by decide)
    · exact leftPad_no_colon 3 _ h
  rw [splitOnChar_not_mem ':' _ hnc3]
  simp only
  rw [pyInt_padIntZeros 2 H, pyInt_padIntZeros 2 M]
  rw [splitOnChar_append '.' _ _ (padIntZeros_no_dot 2 (m / 1000))]
  rw [splitOnChar_not_mem '.' _ (leftPad_no_dot 3 _)]
  simp only
  rw [pyInt_padIntZeros 2 (m / 1000)]
  have hD : pyInt (leftPadZeros 3 (natToChars (m % 1000).toNat)) = some (m % 1000) := by
    rw [pyInt_digits _ (leftPad_ne_nil 3 _) (leftPad_digits 3 _), leftPadZeros,
      digitsVal_pad, digitsVal_natToChars]
    congr 1
    omega
  rw [hD]
  show some ((H : ℚ) * 3600 + (M : ℚ) * 60 + ((m / 1000 : ℤ) : ℚ) +
    ((m % 1000 : ℤ) : ℚ) / 1000) = some x
  congr 1
  have hdm := Int.ediv_add_emod m 1000
  have hdmq : 1000 * (((m / 1000 : ℤ)) : ℚ) + (((m % 1000 : ℤ)) : ℚ) = (m : ℚ) := by
    exact_mod_cast congrArg (fun z : ℤ => (z : ℚ)) hdm
  have hsecsm : secs = (m : ℚ) / 1000 := by
    rw [eq_div_iff (by norm_num : (1000 : ℚ) ≠ 0)]
    exact hsm
  have hFq : (F : ℚ) = 60 * (H : ℚ) + (M : ℚ) := by
    exact_mod_cast congrArg (fun z : ℤ => (z : ℚ)) hFHM
  have hxval : x = 60 * (F : ℚ) + secs := by
    rw [hsecs]
    ring
  rw [hxval, hFq, hsecsm, ← hdmq]
  ring

lemma timeToSecondsChars_ms (l : List Char) (x : ℚ)
    (h : timeToSecondsChars l = some x) : ∃ k : ℤ, x = (k : ℚ) / 1000 := by
  rw [timeToSecondsChars] at h
  rcases hparts : splitOnChar ':' (commaToDot l) with _ | ⟨p0, _ | ⟨p1, _ | ⟨p2, tail⟩⟩⟩ <;>
    rw [hparts] at h
  · exact absurd h (by simp)
  · exact absurd h (by simp)
  · exact absurd h (by simp)
  · simp only [Option.bind_eq_bind] at h
    rcases Option.bind_eq_some.mp h with ⟨hours, hh, h2⟩
    rcases Option.bind_eq_some.mp h2 with ⟨minutes, hm2, h3⟩
    rcases hsp : splitOnChar '.' p2 with _ | ⟨s0, rest⟩ <;> rw [hsp] at h3
    · exact absurd h3 (by simp)
    · rcases Option.bind_eq_some.mp h3 with ⟨seconds, hs2, h4⟩
      rcases rest with _ | ⟨mchars, mtail⟩
      · simp only [Option.pure_def, Option.some_bind, Option.some.injEq] at h4
        refine ⟨3600000 * hours + 60000 * minutes + 1000 * seconds, ?_⟩
        rw [← h4]
        push_cast
        ring
      · rcases Option.bind_eq_some.mp h4 with ⟨ms, hms, h5⟩
        simp only [Option.pure_def, Option.some.injEq] at h5
        refine ⟨3600000 * hours + 60000 * minutes + 1000 * seconds + ms, ?_⟩
        rw [← h5]
        push_cast
        ring

/-- Claim C6: the timestamp round-trip law.  For every string `t` that
`time_to_seconds` parses successfully, formatting the parsed value with
`_seconds_to_time` and parsing again returns exactly the originally
parsed value (every parsed value is an integer count of milliseconds, so
the round trip is exact, a fortiori equal to millisecond precision). -/
theorem timestamp_roundtrip (s : String) (x : ℚ) (h : time_to_seconds s = some x) :
    time_to_seconds (seconds_to_time x) = some x := by
  obtain ⟨k, rfl⟩ := timeToSecondsChars_ms s.data x h
  rw [time_to_seconds, seconds_to_time]
  exact time_format_roundtrip k

/-- Witness for `timestamp_roundtrip` at `"00:00:01,500"`. -/
theorem timestamp_roundtrip_witness :
    time_to_seconds "00:00:01,500" = some (3 / 2) ∧
    time_to_seconds (seconds_to_time (3 / 2)) = some (3 / 2) := by
  have h : time_to_seconds "00:00:01,500" = some (3 / 2) := by
    simp [time_to_seconds, timeToSecondsChars, pyInt, pyStrip, parseDigits, digitsVal,
      digitVal, commaToDot, splitOnChar]
    norm_num
  exact ⟨h, timestamp_roundtrip "00:00:01,500" (3 / 2) h⟩

lemma timeToSecondsChars_iff (l : List Char) (x : ℚ) :
    timeToSecondsChars l = some x ↔ ParsesTo l x := by
  constructor
  · intro h
    rw [timeToSecondsChars] at h
    rcases hparts : splitOnChar ':' (commaToDot l) with _ | ⟨p0, _ | ⟨p1, _ | ⟨p2, tail⟩⟩⟩ <;>
      rw [hparts] at h
    · exact absurd h (by simp)
    · exact absurd h (by simp)
    · exact absurd h (by simp)
    · simp only [Option.bind_eq_bind] at h
      rcases Option.bind_eq_some.mp h with ⟨hours, hh, h2⟩
      rcases Option.bind_eq_some.mp h2 with ⟨minutes, hm2, h3⟩
      rcases hsp : splitOnChar '.' p2 with _ | ⟨s0, rest⟩ <;> rw [hsp] at h3
      · exact absurd h3 (by simp)
      · rcases Option.bind_eq_some.mp h3 with ⟨seconds, hs2, h4⟩
        rcases rest with _ | ⟨mfield, mtail⟩
        · simp only [Option.pure_def, Option.some_bind, Option.some.injEq] at h4
          exact ⟨p0, p1, p2, s0, tail, [], hours, minutes, seconds, 0, hparts, hh, hm2,
            hsp, hs2, Or.inl ⟨rfl, rfl⟩, h4.symm⟩
        · rcases Option.bind_eq_some.mp h4 with ⟨ms, hms, h5⟩
          simp only [Option.pure_def, Option.some.injEq] at h5
          exact ⟨p0, p1, p2, s0, tail, mfield :: mtail, hours, minutes, seconds, ms,
            hparts, hh, hm2, hsp, hs2, Or.inr ⟨mfield, mtail, rfl, hms⟩, h5.symm⟩
  · rintro ⟨p0, p1, p2, s0, tail, rest, hours, minutes, seconds, ms, hparts, hh, hm2,
      hsp, hs2, hms, rfl⟩
    rw [timeToSecondsChars, hparts]
    simp only [Option.bind_eq_bind]
    rw [hh]
    simp only [Option.some_bind]
    rw [hm2]
    simp only [Option.some_bind]
    rw [hsp]
    simp only
    rw [hs2]
    simp only [Option.some_bind]
    rcases hms with ⟨rfl, rfl⟩ | ⟨mfield, mtail, rfl, hmf⟩
    · simp
    · simp [hmf]

/-- Claim C7, amended: `time_to_seconds` enforces no field widths or
patterns: a string is accepted exactly when (after replacing `,` by `.`)
it has at least three colon-separated fields whose first two, and the
leading dot-component of the third, parse as Python integers - so
one-digit fields, signed fields, four-or-more fractional digits and
extra colon or dot fields all pass, the fractional component being
parsed by `int()` as a count of milliseconds and defaulting to 0 when
absent - yielding `hours*3600 + minutes*60 + seconds + milliseconds/1000`;
it raises (modelled `none`) exactly when no such decomposition exists,
i.e. when fewer than three colon fields exist or a required field does
not parse as an integer. -/
theorem parse_characterization :
    (∀ (s : String) (x : ℚ), time_to_seconds s = some x ↔ ParsesTo s.data x) ∧
    (∀ s : String, time_to_seconds s = none ↔ ¬ ∃ x : ℚ, ParsesTo s.data x) := by
  constructor
  · intro s x
    rw [time_to_seconds]
    exact timeToSecondsChars_iff s.data x
  · intro s
    rw [time_to_seconds]
    constructor
    · rintro hnone ⟨x, hx⟩
      rw [(timeToSecondsChars_iff s.data x).mpr hx] at hnone
      exact absurd hnone (by simp)
    · intro hnx
      rcases ho : timeToSecondsChars s.data with _ | x
      · rfl
      · exact absurd ⟨x, (timeToSecondsChars_iff s.data x).mp ho⟩ hnx

/-- Witness for `parse_characterization`, applied in the accepting
direction at `"-1:00:00,5:99"`: a signed one-digit hour field, a
one-digit fractional component parsed as 5 milliseconds (not 0.5s), and
an ignored extra colon field. -/
theorem parse_characterization_witness :
    time_to_seconds "-1:00:00,5:99" = some (-3600 + (5 : ℚ) / 1000) :=
  (parse_characterization.1 "-1:00:00,5:99" (-3600 + (5 : ℚ) / 1000)).mpr
    ⟨['-', '1'], ['0', '0'], ['0', '0', '.', '5'], ['0', '0'], [['9', '9']], [['5']],
      -1, 0, 0, 5, by decide, by decide, by decide, by decide, by decide,
      Or.inr ⟨['5'], [], rfl, by decide⟩, by norm_num⟩
